import Mathlib

/-!
Verification of the discord-chunker line-oriented splitter.

This file shallowly embeds the final, line-oriented implementation of
`src/chunker.ts` (the variant exporting `chunkContent` and `countLines`):
the fence-line recognizer FENCE_RE, `countLines`, the per-line splitting
loop with its `flush` closure and the two hard-cut paths, and the sanity
guard against `DISCORD_CHAR_LIMIT` from `src/types.ts`.

Strings are modelled as lists of characters (`Str`), a text's lines as
`List Str`.  JavaScript's `split("\n")`, `join("\n")` and
`String.prototype.trim` are modelled by `splitOnNl`, `joinNl` and `trimWs`.
The two `while` loops of the hard-cut paths are modelled with an explicit
fuel argument; the call sites pass fuel `line.length + 1`, which is shown
sufficient whenever the loop makes progress (for `maxChars = 0` the
JavaScript loop of the plain hard-cut path does not terminate, and the
model is only ever used with the validated positive `maxChars`).
-/

namespace DiscordChunker

abbrev Str := List Char

/-- The backtick character (code point 96). -/
def backtick : Char := Char.ofNat 96

/-- Discord's hard message limit, `DISCORD_CHAR_LIMIT` in src/types.ts. -/
def DISCORD_CHAR_LIMIT : Nat := 2000

structure ChunkerConfig where
  maxChars : Nat
  maxLines : Nat
deriving DecidableEq, Repr

/-- A configuration accepted by `validateConfig` in src/config.ts:
`max_chars` an integer between 100 and `DISCORD_CHAR_LIMIT`, `max_lines`
a non-negative integer (non-negativity is built into `Nat`). -/
def ValidConfig (cfg : ChunkerConfig) : Prop :=
  100 ≤ cfg.maxChars ∧ cfg.maxChars ≤ DISCORD_CHAR_LIMIT

/-- `content.split("\n")`. -/
def splitOnNl : Str → List Str
  | [] => [[]]
  | c :: rest =>
    if c = '\n' then [] :: splitOnNl rest
    else
      match splitOnNl rest with
      | [] => [[c]]
      | s :: ss => (c :: s) :: ss

/-- `lines.join("\n")`. -/
def joinNl : List Str → Str
  | [] => []
  | [l] => l
  | l :: l' :: ls => l ++ '\n' :: joinNl (l' :: ls)

/-- Whitespace for `String.prototype.trim` (the ASCII whitespace characters
together with NBSP and the BOM; other Unicode space separators are not
modelled, no input in this development contains them). -/
def isJsWs (c : Char) : Bool :=
  c = ' ' || c = '\t' || c = '\n' || c = '\r' ||
    c = '\x0b' || c = '\x0c' || c = ' ' || c = '﻿'

def trimLeftWs (s : Str) : Str := s.dropWhile isJsWs

def trimRightWs (s : Str) : Str := (s.reverse.dropWhile isJsWs).reverse

/-- `s.trim()`. -/
def trimWs (s : Str) : Str := trimLeftWs (trimRightWs s)

/-- The two fence marker families of FENCE_RE. -/
def isMarkerChar (c : Char) : Bool := c = backtick || c = '~'

/-- `line.match(FENCE_RE)` for the regex
`^( ?spaces up to 3)(three-or-more backticks or tildes)(anything)$`,
returning the marker character and marker length of a fence-delimiter
line.  At most three leading spaces are allowed; the greedy space group
fails whenever four or more spaces precede the marker. -/
def fenceMatch (line : Str) : Option (Char × Nat) :=
  let sp := line.takeWhile (fun c => c = ' ')
  if 3 < sp.length then none
  else
    match line.drop sp.length with
    | [] => none
    | c :: rest =>
      if isMarkerChar c then
        let runLen := (rest.takeWhile (fun d => d = c)).length + 1
        if 3 ≤ runLen then some (c, runLen) else none
      else none

/-- `isFenceLine` in src/chunker.ts. -/
def isFenceLine (line : Str) : Bool := (fenceMatch line).isSome

/-- `countLines` in src/chunker.ts: counts the lines of `text.split("\n")`
that are not fence-delimiter lines; the empty string yields 0. -/
def countLines (text : Str) : Nat :=
  if text.isEmpty then 0
  else ((splitOnNl text).filter (fun l => !(isFenceLine l))).length

/-- `FenceState` in src/chunker.ts. -/
structure FenceState where
  openLine : Str
  markerChar : Char
  markerLen : Nat
deriving DecidableEq, Repr

/-- The mutable locals of one `chunkContent` call. -/
structure St where
  chunks : List Str
  current : List Str
  currentChars : Nat
  currentContentLines : Nat
  fence : Option FenceState
deriving DecidableEq, Repr

/-- `fence.markerChar.repeat(fence.markerLen)`. -/
def closeLineOf (f : FenceState) : Str := List.replicate f.markerLen f.markerChar

/-- The `flush` closure: close an open fence, emit the trimmed chunk, and
reopen the fence in the next chunk. -/
def flushSt (st : St) : St :=
  if st.current.isEmpty then st
  else
    match st.fence with
    | some f =>
      { chunks := st.chunks ++ [trimWs (joinNl (st.current ++ [closeLineOf f]))]
        current := [f.openLine]
        currentChars := f.openLine.length
        currentContentLines := 0
        fence := some f }
    | none =>
      { chunks := st.chunks ++ [trimWs (joinNl st.current)]
        current := []
        currentChars := 0
        currentContentLines := 0
        fence := none }

def fenceErrMsg (maxChars : Nat) : String :=
  "Unable to chunk: maxChars (" ++ toString maxChars ++
    ") is too small to preserve active code fence wrappers."

def sanityMsg (n : Nat) : String :=
  "Unable to chunk: resulting chunk exceeds " ++ toString DISCORD_CHAR_LIMIT ++
    " character limit (got " ++ toString n ++ ")."

/-- The `while (remaining.length > 0)` loop of the hard-cut path taken while
a fence is open.  `room <= 0` (integer arithmetic in the source) is
`maxChars ≤ currentChars + joinCost + overhead` here. -/
def hardCutFenceGo (maxChars : Nat) (f : FenceState) (lineFence : Bool) :
    Nat → St → Str → Except String St
  | 0, st, _ => .ok st
  | fuel + 1, st, remaining =>
    if remaining.isEmpty then .ok st
    else
      let joinCost := if st.current.isEmpty then 0 else 1
      let overhead := 1 + (closeLineOf f).length
      if maxChars ≤ st.currentChars + joinCost + overhead then
        .error (fenceErrMsg maxChars)
      else
        let room := maxChars - st.currentChars - joinCost - overhead
        let take := min room remaining.length
        let piece := remaining.take take
        let cur := st.current ++ [piece]
        let st' : St :=
          { st with
            current := cur
            currentChars :=
              if cur.length = 1 then piece.length
              else st.currentChars + joinCost + piece.length
            currentContentLines :=
              st.currentContentLines + (if lineFence then 0 else 1) }
        let rest := remaining.drop take
        if rest.isEmpty then .ok st'
        else hardCutFenceGo maxChars f lineFence fuel (flushSt st') rest

/-- The `while (remaining.length > maxChars)` loop of the hard-cut path taken
with no open fence: oversized pieces are pushed directly (untrimmed). -/
def hardCutPlainGo (maxChars : Nat) :
    Nat → List Str → Str → List Str × Str
  | 0, chunks, remaining => (chunks, remaining)
  | fuel + 1, chunks, remaining =>
    if maxChars < remaining.length then
      hardCutPlainGo maxChars fuel
        (chunks ++ [remaining.take maxChars]) (remaining.drop maxChars)
    else (chunks, remaining)

/-- Whether this line is a fence transition (opening, or closing the active
fence) given the pre-update fence state. -/
def lineIsFenceB (fence : Option FenceState) (fm : Option (Char × Nat)) : Bool :=
  match fm, fence with
  | some _, none => true
  | some (c, len), some f => c = f.markerChar && f.markerLen ≤ len
  | none, _ => false

/-- Fence-state update performed after a line has been handled. -/
def updateFence (fence : Option FenceState) (line : Str)
    (fm : Option (Char × Nat)) : Option FenceState :=
  match fm with
  | none => fence
  | some (c, len) =>
    match fence with
    | none => some { openLine := line, markerChar := c, markerLen := len }
    | some f => if c = f.markerChar ∧ f.markerLen ≤ len then none else some f

/-- One iteration of the `for (const line of lines)` loop. -/
def step (cfg : ChunkerConfig) (st : St) (line : Str) : Except String St :=
  let fm := fenceMatch line
  let lineFence := lineIsFenceB st.fence fm
  if cfg.maxChars < line.length then
    let st1 := flushSt st
    match st1.fence with
    | some f =>
      match hardCutFenceGo cfg.maxChars f lineFence (line.length + 1) st1 line with
      | .error e => .error e
      | .ok st2 => .ok { st2 with fence := updateFence st2.fence line fm }
    | none =>
      let p := hardCutPlainGo cfg.maxChars (line.length + 1) st1.chunks line
      let st2 : St :=
        if p.2.isEmpty then
          { chunks := p.1, current := [], currentChars := 0,
            currentContentLines := 0, fence := none }
        else
          { chunks := p.1, current := [p.2], currentChars := p.2.length,
            currentContentLines := if lineFence then 0 else 1, fence := none }
      .ok { st2 with fence := updateFence st2.fence line fm }
  else
    let joinCost := if st.current.isEmpty then 0 else 1
    let nextChars := st.currentChars + joinCost + line.length
    let nextContentLines := st.currentContentLines + (if lineFence then 0 else 1)
    let overhead : Nat :=
      match st.fence with
      | some f => 1 + (closeLineOf f).length
      | none => 0
    let exceedsChars := cfg.maxChars < nextChars + overhead
    let exceedsLines := 0 < cfg.maxLines ∧ cfg.maxLines < nextContentLines
    let st1 :=
      if (exceedsChars ∨ exceedsLines) ∧ ¬ st.current.isEmpty then flushSt st
      else st
    let cur := st1.current ++ [line]
    let st2 : St :=
      { st1 with
        current := cur
        currentChars :=
          if cur.length = 1 then line.length
          else st1.currentChars + 1 + line.length
        currentContentLines :=
          st1.currentContentLines + (if lineFence then 0 else 1) }
    .ok { st2 with fence := updateFence st2.fence line fm }

def initSt : St :=
  { chunks := [], current := [], currentChars := 0,
    currentContentLines := 0, fence := none }

/-- The whole per-line loop. -/
def runLines (cfg : ChunkerConfig) : St → List Str → Except String St
  | st, [] => .ok st
  | st, line :: rest =>
    match step cfg st line with
    | .error e => .error e
    | .ok st' => runLines cfg st' rest

/-- Everything of `chunkContent` before the sanity guard (for non-empty
content): run the loop and emit the final, untrimmed chunk. -/
def chunkLines (content : Str) (cfg : ChunkerConfig) : Except String (List Str) :=
  match runLines cfg initSt (splitOnNl content) with
  | .error e => .error e
  | .ok st =>
    .ok (if st.current.isEmpty then st.chunks else st.chunks ++ [joinNl st.current])

/-- The sanity guard: fail on the first chunk over `DISCORD_CHAR_LIMIT`,
naming its length. -/
def sanityCheck (chunks : List Str) : Except String (List Str) :=
  match chunks.find? (fun c => decide (DISCORD_CHAR_LIMIT < c.length)) with
  | some c => .error (sanityMsg c.length)
  | none => .ok chunks

/-- `chunkContent` in src/chunker.ts. -/
def chunkContent (content : Str) (cfg : ChunkerConfig) : Except String (List Str) :=
  if content.isEmpty then .ok [content]
  else
    match chunkLines content cfg with
    | .error e => .error e
    | .ok chunks => sanityCheck chunks

/-! ### Lines: splitting and joining -/

theorem splitOnNl_ne_nil (s : Str) : splitOnNl s ≠ [] := by
  induction s with
  | nil => simp [splitOnNl]
  | cons c rest ih =>
    simp only [splitOnNl]
    split
    · simp
    · split
      · simp
      · simp

theorem joinNl_cons_cons (l l' : Str) (ls : List Str) :
    joinNl (l :: l' :: ls) = l ++ '\n' :: joinNl (l' :: ls) := rfl

theorem joinNl_splitOnNl (s : Str) : joinNl (splitOnNl s) = s := by
  induction s with
  | nil => rfl
  | cons c rest ih =>
    simp only [splitOnNl]
    split
    · rename_i h
      subst h
      rcases hs : splitOnNl rest with _ | ⟨t, ts⟩
      · exact absurd hs (splitOnNl_ne_nil rest)
      · rw [hs] at ih
        rw [joinNl_cons_cons]
        simp [ih]
    · rcases hs : splitOnNl rest with _ | ⟨t, ts⟩
      · exact absurd hs (splitOnNl_ne_nil rest)
      · rw [hs] at ih
        cases ts with
        | nil => simpa [joinNl] using congrArg (c :: ·) ih
        | cons t' ts' =>
          rw [joinNl_cons_cons]
          simp only [List.cons_append]
          rw [← joinNl_cons_cons, ih]

theorem splitOnNl_no_nl (s : Str) : ∀ l ∈ splitOnNl s, '\n' ∉ l := by
  induction s with
  | nil => simp [splitOnNl]
  | cons c rest ih =>
    simp only [splitOnNl]
    split
    · intro l hl
      rcases List.mem_cons.mp hl with hl | hl
      · simp [hl]
      · exact ih l hl
    · rename_i hc
      rcases hs : splitOnNl rest with _ | ⟨t, ts⟩
      · exact absurd hs (splitOnNl_ne_nil rest)
      · rw [hs] at ih
        intro l hl
        rcases List.mem_cons.mp hl with hl | hl
        · subst hl
          intro hmem
          rcases List.mem_cons.mp hmem with h | h
          · exact hc h.symm
          · exact ih t (by simp) h
        · exact ih l (by simp [hl])

theorem splitOnNl_of_no_nl (s : Str) (h : '\n' ∉ s) : splitOnNl s = [s] := by
  induction s with
  | nil => rfl
  | cons c rest ih =>
    simp only [splitOnNl]
    rw [if_neg (by intro hc; exact h (by simp [hc]))]
    rw [ih (by intro hm; exact h (by simp [hm]))]

theorem splitOnNl_append_nl (l : Str) (s : Str) (hl : '\n' ∉ l) :
    splitOnNl (l ++ '\n' :: s) = l :: splitOnNl s := by
  induction l with
  | nil => simp [splitOnNl]
  | cons c cs ih =>
    have hc : ¬ (c = '\n') := by intro hc; exact hl (by simp [hc])
    simp only [List.cons_append, splitOnNl]
    rw [if_neg hc, List.append_eq, ih (by intro hm; exact hl (by simp [hm]))]

theorem splitOnNl_joinNl (ls : List Str) (hne : ls ≠ [])
    (h : ∀ l ∈ ls, '\n' ∉ l) : splitOnNl (joinNl ls) = ls := by
  induction ls with
  | nil => exact absurd rfl hne
  | cons l ls ih =>
    cases ls with
    | nil => exact splitOnNl_of_no_nl l (h l (by simp))
    | cons l' ls' =>
      rw [joinNl_cons_cons, splitOnNl_append_nl l _ (h l (by simp)),
        ih (by simp) (fun x hx => h x (by simp [hx]))]

/-! ### Claims C6, C8, C4, C3 -/

/-- Modelled from the spec's words (§4.2), for comparison with the source's
`countLines`: the number of lines of `text.split("\n")` that are non-empty
and not fence-delimiter lines. -/
def specReadableLines (text : Str) : Nat :=
  ((splitOnNl text).filter (fun l => !(l.isEmpty) && !(isFenceLine l))).length

/-- Modelled from the amended wording: the number of lines of
`text.split("\n")` that are not fence-delimiter lines (blank lines
included). -/
def nonFenceLineCount (text : Str) : Nat :=
  ((splitOnNl text).filter (fun l => !(isFenceLine l))).length

/-- C6, counterexample. -/
theorem c6_counterexample :
    countLines ['\n'] = 2 ∧ specReadableLines ['\n'] = 0 := by
  constructor <;> rfl

/-- C6, amended. -/
theorem c6_amended_countLines (text : Str) :
    countLines [] = 0 ∧ (text ≠ [] → countLines text = nonFenceLineCount text) := by
  refine ⟨rfl, fun h => ?_⟩
  rw [countLines, if_neg (by simpa using h)]
  rfl

/-- C6, witness. -/
theorem c6_witness :
    countLines [] = 0 ∧ ("a\nb".data ≠ [] ∧ countLines ("a\nb".data) = nonFenceLineCount ("a\nb".data)) :=
  ⟨(c6_amended_countLines []).1, by decide, (c6_amended_countLines ("a\nb".data)).2 (by decide)⟩

def c8Input : Str := (' ' :: List.replicate 99 'a') ++ ('\n' :: ['b'])

set_option maxRecDepth 40000 in
/-- C8: evaluation of the code at the failing input: the leading space of
the first line is dropped by the trim performed in `flush`. -/
theorem c8_code_bug_eval :
    chunkContent c8Input ⟨100, 0⟩ = .ok [List.replicate 99 'a', ['b']] ∧
      splitOnNl c8Input = [' ' :: List.replicate 99 'a', ['b']] ∧
      List.replicate 99 'a' ≠ ' ' :: List.replicate 99 'a' := by
  refine ⟨by rfl, by rfl, by decide⟩

def c4Input : Str := List.replicate 98 'h' ++ [' ', ' ', '\n', 't', 't']

set_option maxRecDepth 40000 in
/-- C4: evaluation of the code at the failing input, together with the
hard-cut scenario from the claim: the first chunk's only line is not a
verbatim original line (its trailing spaces were trimmed). -/
theorem c4_code_bug_eval :
    chunkContent c4Input ⟨100, 0⟩ = .ok [List.replicate 98 'h', ['t', 't']] ∧
      (List.replicate 98 'h') ∉ splitOnNl c4Input ∧
      chunkContent (List.replicate 200 'A') ⟨100, 0⟩ =
        .ok [List.replicate 100 'A', List.replicate 100 'A'] := by
  refine ⟨by rfl, by decide, by rfl⟩

def c3Open : Str := [' ', ' '] ++ List.replicate 3 backtick

def c3Input : Str :=
  c3Open ++ ('\n' :: List.replicate 90 'a') ++ ('\n' :: List.replicate 90 'b') ++
    ('\n' :: List.replicate 90 'c')

set_option maxRecDepth 40000 in
/-- C3: evaluation of the code at the failing input: the second chunk
begins with the dedented marker, not with the original indented opening
line. -/
theorem c3_code_bug_eval :
    chunkContent c3Input ⟨100, 0⟩ =
      .ok [List.replicate 3 backtick ++ '\n' :: List.replicate 90 'a' ++ '\n' :: List.replicate 3 backtick,
           List.replicate 3 backtick ++ '\n' :: List.replicate 90 'b' ++ '\n' :: List.replicate 3 backtick,
           c3Open ++ '\n' :: List.replicate 90 'c'] ∧
      ¬ (c3Open <+: (List.replicate 3 backtick ++ '\n' :: List.replicate 90 'b' ++ '\n' :: List.replicate 3 backtick)) := by
  refine ⟨by rfl, by decide⟩

/-! ### Claims C2 and C10 -/

theorem joinNl_append (ls ms : List Str) (h1 : ls ≠ []) (h2 : ms ≠ []) :
    joinNl (ls ++ ms) = joinNl ls ++ '\n' :: joinNl ms := by
  induction ls with
  | nil => exact absurd rfl h1
  | cons a as ih =>
    cases as with
    | nil =>
      cases ms with
      | nil => exact absurd rfl h2
      | cons m ms' => simp [joinNl_cons_cons, joinNl]
    | cons b bs =>
      simp only [List.cons_append]
      rw [joinNl_cons_cons, joinNl_cons_cons]
      rw [show (b :: (bs ++ ms)) = ((b :: bs) ++ ms) from rfl, ih (by simp)]
      simp

theorem joinNl_append_last (ls : List Str) (l : Str) (h : ls ≠ []) :
    joinNl (ls ++ [l]) = joinNl ls ++ '\n' :: l := by
  rw [joinNl_append ls [l] h (by simp)]
  rfl

theorem joinNl_length_append_last (ls : List Str) (l : Str) :
    (joinNl (ls ++ [l])).length =
      if ls.isEmpty then l.length else (joinNl ls).length + 1 + l.length := by
  cases ls with
  | nil => simp [joinNl]
  | cons a as =>
    rw [joinNl_append_last _ _ (by simp)]
    simp
    omega

theorem joinNl_length_prefix_le (ls ms : List Str) :
    (joinNl ls).length ≤ (joinNl (ls ++ ms)).length := by
  cases ls with
  | nil => simp [joinNl]
  | cons a as =>
    cases ms with
    | nil => simp
    | cons m ms' =>
      rw [joinNl_append _ _ (by simp) (by simp)]
      simp

theorem length_le_joinNl_of_mem (l : Str) (ls : List Str) (h : l ∈ ls) :
    l.length ≤ (joinNl ls).length := by
  induction ls with
  | nil => simp at h
  | cons a as ih =>
    rcases List.mem_cons.mp h with h | h
    · subst h
      cases as with
      | nil => simp [joinNl]
      | cons b bs => rw [joinNl_cons_cons]; simp
    · cases as with
      | nil => simp at h
      | cons b bs =>
        rw [joinNl_cons_cons]
        have := ih h
        simp only [List.length_append, List.length_cons]
        omega

theorem sanityCheck_of_le (chunks : List Str)
    (h : ∀ c ∈ chunks, c.length ≤ DISCORD_CHAR_LIMIT) :
    sanityCheck chunks = .ok chunks := by
  rw [sanityCheck, List.find?_eq_none.mpr]
  intro c hc
  simpa using h c hc

/-- Rewriting `step` on a non-fence line that fits without flushing,
starting from a fence-free state. -/
theorem step_noFence_noSplit (cfg : ChunkerConfig) (st : St) (line : Str)
    (hf : st.fence = none) (hfm : fenceMatch line = none)
    (hlen : line.length ≤ cfg.maxChars)
    (hchars : st.currentChars + (if st.current.isEmpty then 0 else 1) + line.length ≤ cfg.maxChars)
    (hlines : cfg.maxLines = 0 ∨ st.currentContentLines + 1 ≤ cfg.maxLines) :
    step cfg st line = .ok
      { st with
        current := st.current ++ [line]
        currentChars :=
          if (st.current ++ [line]).length = 1 then line.length
          else st.currentChars + 1 + line.length
        currentContentLines := st.currentContentLines + 1 } := by
  rw [step]
  simp only [hfm, hf, lineIsFenceB, updateFence]
  rw [if_neg (by omega)]
  rw [if_neg (by
    rintro ⟨hor, -⟩
    rcases hor with h | h
    · omega
    · simp only [Bool.false_eq_true, if_false] at h
      rcases hlines with h0 | h0 <;> omega)]
  simp [hf]

theorem runLines_fencefree_fit (cfg : ChunkerConfig) (rest : List Str) :
    ∀ done : List Str,
    (∀ l ∈ rest, fenceMatch l = none) →
    (joinNl (done ++ rest)).length ≤ cfg.maxChars →
    (cfg.maxLines = 0 ∨ (done ++ rest).length ≤ cfg.maxLines) →
    runLines cfg
      { chunks := [], current := done, currentChars := (joinNl done).length,
        currentContentLines := done.length, fence := none } rest
      = .ok { chunks := [], current := done ++ rest,
              currentChars := (joinNl (done ++ rest)).length,
              currentContentLines := (done ++ rest).length, fence := none } := by
  induction rest with
  | nil => intro done hnf hchars hlines; simp [runLines]
  | cons line rs ih =>
    intro done hnf hchars hlines
    have hassoc : done ++ line :: rs = (done ++ [line]) ++ rs := by simp
    have hlen : line.length ≤ cfg.maxChars := by
      refine le_trans ?_ hchars
      exact length_le_joinNl_of_mem line _ (by simp)
    have hpre : (joinNl (done ++ [line])).length ≤ cfg.maxChars := by
      refine le_trans ?_ hchars
      rw [hassoc]
      exact joinNl_length_prefix_le _ _
    have hch : (joinNl done).length + (if done.isEmpty then 0 else 1) + line.length ≤
        cfg.maxChars := by
      refine le_trans (le_of_eq ?_) hpre
      rw [joinNl_length_append_last]
      cases done <;> simp [joinNl]
    have hl : cfg.maxLines = 0 ∨ done.length + 1 ≤ cfg.maxLines := by
      rcases hlines with h | h
      · exact Or.inl h
      · right; simp at h; omega
    rw [runLines]
    rw [step_noFence_noSplit cfg _ line rfl (hnf line (by simp)) hlen hch hl]
    have hcc : (if (done ++ [line]).length = 1 then line.length
        else (joinNl done).length + 1 + line.length) = (joinNl (done ++ [line])).length := by
      rw [joinNl_length_append_last]
      cases done <;> simp [joinNl]
    simp only [hcc]
    have := ih (done ++ [line]) (fun l hl => hnf l (by simp [hl]))
      (by rw [← hassoc]; exact hchars)
      (by rw [← hassoc]; rcases hlines with h | h; exact Or.inl h; exact Or.inr h)
    rw [show (done ++ [line]).length = done.length + 1 by simp] at this
    rw [this]
    rw [← hassoc]

/-- C2 (amended): for fence-free content that fits the character limit and
whose raw line count fits the line limit, chunkContent is the identity
single-chunk result; the empty string always yields a single empty chunk. -/
theorem c2_amended_fast_path (content : Str) (cfg : ChunkerConfig)
    (hv : ValidConfig cfg)
    (hnf : ∀ l ∈ splitOnNl content, fenceMatch l = none)
    (hfit : content.length ≤ cfg.maxChars)
    (hlines : cfg.maxLines = 0 ∨ (splitOnNl content).length ≤ cfg.maxLines) :
    chunkContent content cfg = .ok [content] := by
  by_cases hemp : content = []
  · subst hemp; rfl
  · rw [chunkContent, if_neg (by simpa using hemp), chunkLines]
    have hrun := runLines_fencefree_fit cfg (splitOnNl content) [] hnf
      (by rw [List.nil_append, joinNl_splitOnNl]; exact hfit)
      (by simpa using hlines)
    have hinit : initSt =
        { chunks := [], current := ([] : List Str), currentChars := (joinNl []).length,
          currentContentLines := ([] : List Str).length, fence := none } := rfl
    rw [hinit, hrun]
    have hne : (splitOnNl content).isEmpty = false := by
      simpa using splitOnNl_ne_nil content
    simp only [List.nil_append, hne, Bool.false_eq_true, if_false, joinNl_splitOnNl]
    exact sanityCheck_of_le _ (by
      intro c hc
      rcases List.mem_singleton.mp hc with rfl
      exact le_trans hfit hv.2)

/-- C2, counterexample. -/
theorem c2_counterexample :
    ("a\n\nb".data).length ≤ 1950 ∧ specReadableLines ("a\n\nb".data) = 2 ∧
      chunkContent ("a\n\nb".data) ⟨1950, 2⟩ = .ok ["a".data, "b".data] ∧
      ["a".data, "b".data] ≠ ["a\n\nb".data] := by
  refine ⟨by decide, by rfl, by rfl, by decide⟩

/-- C2, witness. -/
theorem c2_witness : chunkContent ("hello".data) ⟨1950, 17⟩ = .ok ["hello".data] :=
  c2_amended_fast_path ("hello".data) ⟨1950, 17⟩ ⟨by decide, by decide⟩
    (by decide) (by decide) (Or.inr (by decide))

def pushLine (st : St) (lineFence : Bool) (line : Str) : St :=
  { st with
    current := st.current ++ [line]
    currentChars :=
      if (st.current ++ [line]).length = 1 then line.length
      else st.currentChars + 1 + line.length
    currentContentLines := st.currentContentLines + (if lineFence then 0 else 1) }

/-- The step function on a line that fits `maxChars`: optionally flush, then
append the line and update the fence state. -/
theorem step_eq_of_fits (cfg : ChunkerConfig) (st : St) (line : Str)
    (hlen : line.length ≤ cfg.maxChars) :
    step cfg st line = .ok
      { pushLine
          (if (cfg.maxChars < st.currentChars + (if st.current.isEmpty then 0 else 1) + line.length +
                (match st.fence with | some f => 1 + (closeLineOf f).length | none => 0) ∨
              (0 < cfg.maxLines ∧ cfg.maxLines < st.currentContentLines +
                (if lineIsFenceB st.fence (fenceMatch line) then 0 else 1))) ∧
              ¬ st.current.isEmpty
           then flushSt st else st)
          (lineIsFenceB st.fence (fenceMatch line)) line with
        fence := updateFence st.fence line (fenceMatch line) } := by
  simp only [step]
  rw [if_neg (by omega)]
  by_cases hc : (cfg.maxChars < st.currentChars + (if st.current.isEmpty then 0 else 1) + line.length +
                (match st.fence with | some f => 1 + (closeLineOf f).length | none => 0) ∨
              (0 < cfg.maxLines ∧ cfg.maxLines < st.currentContentLines +
                (if lineIsFenceB st.fence (fenceMatch line) then 0 else 1))) ∧
              ¬ st.current.isEmpty
  · rw [if_pos hc]
    have hff : (flushSt st).fence = st.fence := by
      rw [flushSt]
      split
      · rfl
      · cases h : st.fence <;> simp [h]
    simp [pushLine, hff]
  · rw [if_neg hc]
    simp [pushLine]

theorem flushSt_fence (st : St) : (flushSt st).fence = st.fence := by
  rw [flushSt]
  split
  · rfl
  · cases h : st.fence <;> simp [h]

theorem trimLeftWs_length_le (s : Str) : (trimLeftWs s).length ≤ s.length :=
  (List.dropWhile_sublist _).length_le

theorem trimRightWs_length_le (s : Str) : (trimRightWs s).length ≤ s.length := by
  rw [trimRightWs, List.length_reverse]
  calc (s.reverse.dropWhile isJsWs).length ≤ s.reverse.length := (List.dropWhile_sublist _).length_le
    _ = s.length := List.length_reverse s

theorem trimWs_length_le (s : Str) : (trimWs s).length ≤ s.length :=
  le_trans (trimLeftWs_length_le _) (trimRightWs_length_le _)

theorem sanityCheck_eq_ok (l cs : List Str) (h : sanityCheck l = .ok cs) : cs = l := by
  rw [sanityCheck] at h
  rcases hf : l.find? (fun c => decide (DISCORD_CHAR_LIMIT < c.length)) with _ | c
  · rw [hf] at h
    exact (Except.ok.injEq _ _ ▸ congrArg id h :) |>.symm ▸ by
      cases h
      rfl
  · rw [hf] at h
    cases h

theorem runLines_noFence_bound (cfg : ChunkerConfig) (lines : List Str) :
    ∀ st : St,
    (∀ l ∈ lines, fenceMatch l = none) →
    (∀ l ∈ lines, l.length ≤ cfg.maxChars) →
    st.fence = none →
    st.currentChars = (joinNl st.current).length →
    st.currentChars ≤ cfg.maxChars →
    (∀ c ∈ st.chunks, c.length ≤ cfg.maxChars) →
    ∃ st' : St, runLines cfg st lines = .ok st' ∧
      st'.fence = none ∧ st'.currentChars = (joinNl st'.current).length ∧
      st'.currentChars ≤ cfg.maxChars ∧ (∀ c ∈ st'.chunks, c.length ≤ cfg.maxChars) := by
  induction lines with
  | nil =>
    intro st _ _ h1 h2 h3 h4
    exact ⟨st, rfl, h1, h2, h3, h4⟩
  | cons line rs ih =>
    intro st hnf hlen h1 h2 h3 h4
    have hfm : fenceMatch line = none := hnf line (by simp)
    have hlin : line.length ≤ cfg.maxChars := hlen line (by simp)
    rw [runLines, step_eq_of_fits cfg st line hlin]
    by_cases hcond : (cfg.maxChars < st.currentChars + (if st.current.isEmpty then 0 else 1) + line.length +
                (match st.fence with | some f => 1 + (closeLineOf f).length | none => 0) ∨
              (0 < cfg.maxLines ∧ cfg.maxLines < st.currentContentLines +
                (if lineIsFenceB st.fence (fenceMatch line) then 0 else 1))) ∧
              ¬ st.current.isEmpty
    · rw [if_pos hcond]
      have hcur : st.current.isEmpty = false := by simpa using hcond.2
      have hflush : flushSt st =
          { chunks := st.chunks ++ [trimWs (joinNl st.current)], current := [],
            currentChars := 0, currentContentLines := 0, fence := none } := by
        rw [flushSt, if_neg (by simp [hcur]), h1]
      rw [hflush]
      refine ih _ (fun l hl => hnf l (by simp [hl])) (fun l hl => hlen l (by simp [hl]))
        ?_ ?_ ?_ ?_
      · simp [pushLine, updateFence, hfm, h1]
      · simp [pushLine, joinNl]
      · simp [pushLine, hlin]
      · simp only [pushLine]
        intro c hc
        rcases List.mem_append.mp hc with hc | hc
        · exact h4 c hc
        · rcases List.mem_singleton.mp hc with rfl
          exact le_trans (trimWs_length_le _) (h2 ▸ h3)
    · rw [if_neg hcond]
      rcases hc : st.current with _ | ⟨a, as⟩
      · refine ih _ (fun l hl => hnf l (by simp [hl])) (fun l hl => hlen l (by simp [hl]))
          ?_ ?_ ?_ ?_
        · simp [pushLine, updateFence, hfm, h1]
        · simp [pushLine, hc, joinNl]
        · simp [pushLine, hc, hlin]
        · simpa [pushLine] using h4
      · have hne : ¬ (st.current.isEmpty = true) := by simp [hc]
        have hbound : st.currentChars + 1 + line.length ≤ cfg.maxChars := by
          rcases not_and_or.mp hcond with hnor | habs
          · have := not_or.mp hnor |>.1
            rw [h1] at this
            simp only [hc] at this
            simp at this
            omega
          · exact absurd hne (by simpa using habs)
        refine ih _ (fun l hl => hnf l (by simp [hl])) (fun l hl => hlen l (by simp [hl]))
          ?_ ?_ ?_ ?_
        · simp [pushLine, updateFence, hfm, h1]
        · rw [pushLine, joinNl_length_append_last]
          simp only [hc]
          simp [h2, hc]
        · rw [pushLine]
          simp only [hc]
          simpa using hbound
        · simpa [pushLine] using h4

theorem fenceMatch_eq_none_of_not_fenceLine (l : Str) (h : isFenceLine l = false) :
    fenceMatch l = none := by
  rcases hm : fenceMatch l with _ | v
  · rfl
  · rw [isFenceLine, hm] at h
    simp at h

/-- C10: for every content containing no fence-delimiter lines and in which
no single line is longer than maxChars, and every config with positive
maxChars, every chunk returned by chunkContent has length at most
maxChars. -/
theorem c10_chunks_within_maxChars (content : Str) (cfg : ChunkerConfig) (cs : List Str)
    (hpos : 0 < cfg.maxChars)
    (hnf : ∀ l ∈ splitOnNl content, isFenceLine l = false)
    (hlen : ∀ l ∈ splitOnNl content, l.length ≤ cfg.maxChars)
    (hok : chunkContent content cfg = .ok cs) :
    ∀ c ∈ cs, c.length ≤ cfg.maxChars := by
  by_cases hemp : content.isEmpty
  · rw [chunkContent, if_pos hemp] at hok
    have hcs : cs = [content] := by
      cases hok
      rfl
    subst hcs
    intro c hc
    rw [List.mem_singleton.mp hc]
    have hc0 : content = [] := by simpa using hemp
    simp [hc0]
  · rw [chunkContent, if_neg hemp, chunkLines] at hok
    obtain ⟨st', hrun, hf', hcc', hle', hch'⟩ :=
      runLines_noFence_bound cfg (splitOnNl content) initSt
        (fun l hl => fenceMatch_eq_none_of_not_fenceLine l (hnf l hl))
        hlen rfl rfl (Nat.zero_le _) (by intro c hc; simp [initSt] at hc)
    rw [hrun] at hok
    simp only [] at hok
    have hcs := sanityCheck_eq_ok _ _ hok
    subst hcs
    intro c hc
    split at hc
    · exact hch' c hc
    · rcases List.mem_append.mp hc with hc | hc
      · exact hch' c hc
      · rcases List.mem_singleton.mp hc with rfl
        exact hcc' ▸ hle'

/-- C10, witness. -/
theorem c10_witness :
    chunkContent ("ab\ncd".data) ⟨100, 0⟩ = Except.ok ["ab\ncd".data] ∧
    ("ab\ncd".data).length ≤ 100 :=
  ⟨by rfl,
    c10_chunks_within_maxChars ("ab\ncd".data) ⟨100, 0⟩ ["ab\ncd".data]
      (by decide) (by decide) (by decide) (by rfl) ("ab\ncd".data) (by simp)⟩

/-! ### Claim C7 -/

/-- A bare triple-backtick fence-delimiter line. -/
def fenceLine3 : Str := List.replicate 3 backtick

theorem fenceMatch_fenceLine3 : fenceMatch fenceLine3 = some (backtick, 3) := by decide

theorem fenceLine3_no_nl : '\n' ∉ fenceLine3 := by decide

theorem fenceLine3_length : fenceLine3.length = 3 := rfl

/-- The splitter state after consuming k bare fence lines and flushing
nothing: fence-delimiter lines never count toward the line limit. -/
def fenceOnlySt (k : Nat) : St :=
  { chunks := []
    current := List.replicate k fenceLine3
    currentChars := 4 * k - 1
    currentContentLines := 0
    fence := if k % 2 = 1 then some ⟨fenceLine3, backtick, 3⟩ else none }

theorem joinNl_replicate_fenceLine3_length (n : Nat) :
    (joinNl (List.replicate (n + 1) fenceLine3)).length = 4 * n + 3 := by
  induction n with
  | zero => rfl
  | succ m ih =>
    rw [List.replicate_succ' (m + 1) fenceLine3,
      joinNl_append_last _ _ (by simp), List.length_append]
    simp only [ih, List.length_cons, fenceLine3_length]
    omega

theorem runLines_fenceOnly (cfg : ChunkerConfig) (hch : cfg.maxChars = 2000)
    (m : Nat) :
    ∀ k, 1 ≤ k → k + m ≤ 400 →
    runLines cfg (fenceOnlySt k) (List.replicate m fenceLine3) =
      .ok (fenceOnlySt (k + m)) := by
  induction m with
  | zero => intro k _ _; simp [runLines]
  | succ m ih =>
    intro k hk hkm
    rw [List.replicate_succ, runLines,
      step_eq_of_fits cfg (fenceOnlySt k) fenceLine3 (by simp [fenceLine3, hch])]
    have hcurne : (fenceOnlySt k).current.isEmpty = false := by
      rcases Nat.exists_eq_add_of_le hk with ⟨j, rfl⟩
      simp [fenceOnlySt, List.replicate_succ]
    have hlf : lineIsFenceB (fenceOnlySt k).fence (fenceMatch fenceLine3) = true := by
      rw [fenceMatch_fenceLine3, fenceOnlySt]
      by_cases h2 : k % 2 = 1 <;> simp [h2, lineIsFenceB]
    have hov : (match (fenceOnlySt k).fence with
        | some f => 1 + (closeLineOf f).length | none => 0) ≤ 4 := by
      rw [fenceOnlySt]
      by_cases h2 : k % 2 = 1 <;> simp [h2, closeLineOf]
    have hcond : ¬ ((cfg.maxChars < (fenceOnlySt k).currentChars +
          (if (fenceOnlySt k).current.isEmpty then 0 else 1) + fenceLine3.length +
          (match (fenceOnlySt k).fence with
           | some f => 1 + (closeLineOf f).length | none => 0) ∨
        (0 < cfg.maxLines ∧ cfg.maxLines < (fenceOnlySt k).currentContentLines +
          (if lineIsFenceB (fenceOnlySt k).fence (fenceMatch fenceLine3) then 0 else 1))) ∧
        ¬ (fenceOnlySt k).current.isEmpty) := by
      rintro ⟨hor, -⟩
      rcases hor with h | h
      · rw [hch, hcurne, fenceLine3_length] at h
        simp only [Bool.false_eq_true, if_false] at h
        have hcc : (fenceOnlySt k).currentChars = 4 * k - 1 := rfl
        rw [hcc] at h
        omega
      · rw [hlf] at h
        have hccl : (fenceOnlySt k).currentContentLines = 0 := rfl
        rw [hccl] at h
        simp at h
    rw [if_neg hcond, hlf]
    have hrec : ({ pushLine (fenceOnlySt k) true fenceLine3 with
        fence := updateFence (fenceOnlySt k).fence fenceLine3 (fenceMatch fenceLine3) } : St) =
        fenceOnlySt (k + 1) := by
      rw [pushLine, fenceMatch_fenceLine3]
      have hfe : updateFence (fenceOnlySt k).fence fenceLine3 (some (backtick, 3)) =
          (if (k + 1) % 2 = 1 then some ⟨fenceLine3, backtick, 3⟩ else none) := by
        rw [fenceOnlySt]
        by_cases h2 : k % 2 = 1
        · rw [if_pos h2]
          rw [show (k + 1) % 2 = 0 by omega]
          simp [updateFence]
        · rw [if_neg h2]
          rw [show (k + 1) % 2 = 1 by omega]
          simp [updateFence]
      simp only [fenceOnlySt] at hfe
      simp only [fenceOnlySt, St.mk.injEq]
      refine ⟨by trivial, (List.replicate_succ' k fenceLine3).symm, ?_, by simp, hfe⟩
      rw [if_neg (by
        simp only [List.length_append, List.length_replicate, List.length_cons,
          List.length_nil]
        omega), fenceLine3_length]
      omega
    rw [hrec]
    show runLines cfg (fenceOnlySt (k + 1)) (List.replicate m fenceLine3) = _
    rw [ih (k + 1) (by omega) (by omega), show k + 1 + m = k + (m + 1) by omega]

/-- C7 (amended): only fence-delimiter lines are excluded from the
readable-line count: with maxLines = 1, any run of up to 400 bare fence
lines is returned as a single chunk. -/
theorem c7_amended_fence_lines_uncounted (n : Nat) (hn : n ≤ 400) :
    chunkContent (joinNl (List.replicate n fenceLine3)) ⟨2000, 1⟩ =
      .ok [joinNl (List.replicate n fenceLine3)] := by
  cases n with
  | zero => rfl
  | succ m =>
    have hlen : (joinNl (List.replicate (m + 1) fenceLine3)).length = 4 * m + 3 :=
      joinNl_replicate_fenceLine3_length m
    have hne : (joinNl (List.replicate (m + 1) fenceLine3)).isEmpty = false := by
      rcases h : joinNl (List.replicate (m + 1) fenceLine3) with _ | ⟨a, b⟩
      · rw [h] at hlen; simp at hlen
      · rfl
    have hsplit : splitOnNl (joinNl (List.replicate (m + 1) fenceLine3)) =
        List.replicate (m + 1) fenceLine3 := by
      refine splitOnNl_joinNl _ (by simp) ?_
      intro l hl
      rw [List.eq_of_mem_replicate hl]
      exact fenceLine3_no_nl
    have hstep1 : step ⟨2000, 1⟩ initSt fenceLine3 = .ok (fenceOnlySt 1) := by rfl
    have hrunAll : runLines ⟨2000, 1⟩ initSt (List.replicate (m + 1) fenceLine3) =
        .ok (fenceOnlySt (1 + m)) := by
      rw [List.replicate_succ, runLines, hstep1]
      show runLines ⟨2000, 1⟩ (fenceOnlySt 1) (List.replicate m fenceLine3) = _
      exact runLines_fenceOnly ⟨2000, 1⟩ rfl m 1 (by omega) (by omega)
    rw [chunkContent, if_neg (by simp [hne]), chunkLines, hsplit, hrunAll]
    show sanityCheck (if (fenceOnlySt (1 + m)).current.isEmpty then (fenceOnlySt (1 + m)).chunks
        else (fenceOnlySt (1 + m)).chunks ++ [joinNl (fenceOnlySt (1 + m)).current]) =
      Except.ok [joinNl (List.replicate (m + 1) fenceLine3)]
    have h1m : 1 + m = m + 1 := by omega
    rw [h1m]
    have hcurne : (fenceOnlySt (m + 1)).current.isEmpty = false := by
      show (List.replicate (m + 1) fenceLine3).isEmpty = false
      simp [List.replicate_succ]
    rw [hcurne]
    simp only [Bool.false_eq_true, if_false]
    have hchunks : (fenceOnlySt (m + 1)).chunks = [] := rfl
    have hcur : (fenceOnlySt (m + 1)).current = List.replicate (m + 1) fenceLine3 := rfl
    rw [hchunks, hcur, List.nil_append]
    refine sanityCheck_of_le _ ?_
    intro c hc
    rcases List.mem_singleton.mp hc with rfl
    rw [hlen, DISCORD_CHAR_LIMIT]
    omega

/-- C7, counterexample: non-delimiter lines inside an open fence DO count
toward the line limit, so this content splits although the claim says it
must stay whole. -/
theorem c7_counterexample :
    chunkContent ("```\na\nb\nc\n```".data) ⟨1950, 2⟩ =
      .ok ["```\na\nb\n```".data, "```\nc\n```".data] ∧
    ["```\na\nb\n```".data, "```\nc\n```".data] ≠ ["```\na\nb\nc\n```".data] := by
  exact ⟨by rfl, by decide⟩

/-- C7, witness. -/
theorem c7_witness :
    chunkContent (joinNl (List.replicate 5 fenceLine3)) ⟨2000, 1⟩ =
      .ok [joinNl (List.replicate 5 fenceLine3)] :=
  c7_amended_fence_lines_uncounted 5 (by decide)

/-! ### Claim C5 -/

theorem hardCutFenceGo_error (maxChars : Nat) (f : FenceState) (lf : Bool) :
    ∀ (fuel : Nat) (st : St) (remaining : Str) (e : String),
    hardCutFenceGo maxChars f lf fuel st remaining = .error e →
    e = fenceErrMsg maxChars := by
  intro fuel
  induction fuel with
  | zero =>
    intro st r e h
    simp [hardCutFenceGo] at h
  | succ n ih =>
    intro st r e h
    simp only [hardCutFenceGo] at h
    repeat' split at h
    all_goals
      first
        | exact ih _ _ _ h
        | (injection h with h; exact h.symm)
        | simp at h

theorem step_error (cfg : ChunkerConfig) (st : St) (line : Str) (e : String)
    (h : step cfg st line = .error e) : e = fenceErrMsg cfg.maxChars := by
  by_cases hlen : cfg.maxChars < line.length
  · simp only [step] at h
    rw [if_pos hlen] at h
    split at h
    · split at h
      · rename_i e' hgo
        injection h with h
        exact h ▸ hardCutFenceGo_error _ _ _ _ _ _ _ hgo
      · simp at h
    · simp at h
  · rw [step_eq_of_fits cfg st line (Nat.le_of_not_lt hlen)] at h
    simp at h

theorem runLines_error (cfg : ChunkerConfig) (lines : List Str) :
    ∀ (st : St) (e : String), runLines cfg st lines = .error e →
    e = fenceErrMsg cfg.maxChars := by
  induction lines with
  | nil => intro st e h; simp [runLines] at h
  | cons l rs ih =>
    intro st e h
    rw [runLines] at h
    split at h
    · rename_i e' hstep
      injection h with h
      exact h ▸ step_error _ _ _ _ hstep
    · exact ih _ _ h

theorem chunkLines_error (content : Str) (cfg : ChunkerConfig) (e : String)
    (h : chunkLines content cfg = .error e) : e = fenceErrMsg cfg.maxChars := by
  rw [chunkLines] at h
  split at h
  · rename_i e' hrun
    injection h with h
    exact h ▸ runLines_error _ _ _ _ hrun
  · simp at h

theorem sanityCheck_error (l : List Str) (e : String)
    (h : sanityCheck l = .error e) :
    ∃ n, DISCORD_CHAR_LIMIT < n ∧ e = sanityMsg n := by
  rw [sanityCheck] at h
  split at h
  · rename_i c hfind
    refine ⟨c.length, ?_, by injection h with h; exact h.symm⟩
    have := List.find?_some hfind
    simpa using this
  · simp at h

def c5FenceErrInput : Str :=
  (List.replicate 3 backtick ++ List.replicate 93 'x') ++ ('\n' :: List.replicate 150 'A')

set_option maxRecDepth 40000 in
/-- C5: chunkContent errors only with the fence-wrapper message of the
hard-cut-inside-a-fence path or with the sanity-guard message naming an
over-limit length; and the fence-wrapper situation does occur. -/
theorem c5_error_taxonomy :
    (∀ (content : Str) (cfg : ChunkerConfig) (e : String),
      chunkContent content cfg = .error e →
        e = fenceErrMsg cfg.maxChars ∨
          ∃ n, DISCORD_CHAR_LIMIT < n ∧ e = sanityMsg n) ∧
    chunkContent c5FenceErrInput ⟨100, 0⟩ = .error (fenceErrMsg 100) := by
  constructor
  · intro content cfg e h
    rw [chunkContent] at h
    split at h
    · simp at h
    · split at h
      · rename_i e' hcl
        injection h with h
        exact Or.inl (h ▸ chunkLines_error _ _ _ hcl)
      · exact Or.inr (sanityCheck_error _ _ h)
  · rfl

/-- C5, witness. -/
theorem c5_witness :
    fenceErrMsg 100 = fenceErrMsg 100 ∨
      ∃ n, DISCORD_CHAR_LIMIT < n ∧ fenceErrMsg 100 = sanityMsg n :=
  c5_error_taxonomy.1 c5FenceErrInput ⟨100, 0⟩ (fenceErrMsg 100) c5_error_taxonomy.2

/-! ### Claim C1 -/

theorem sanityCheck_ok_bound (l cs : List Str) (h : sanityCheck l = .ok cs) :
    ∀ c ∈ cs, c.length ≤ DISCORD_CHAR_LIMIT := by
  rw [sanityCheck] at h
  split at h
  · simp at h
  · rename_i hfind
    injection h with h
    subst h
    intro c hc
    have := List.find?_eq_none.mp hfind c hc
    simpa using this

/-- C1: whenever chunkContent succeeds every returned chunk is within
DISCORD_CHAR_LIMIT, and whenever the splitter has produced a chunk list
containing an over-limit chunk, chunkContent fails with the sanity
message naming the first offending chunk's actual length. -/
theorem c1_sanity_guard_hard_limit :
    (∀ (content : Str) (cfg : ChunkerConfig) (cs : List Str),
      ValidConfig cfg → chunkContent content cfg = .ok cs →
        ∀ c ∈ cs, c.length ≤ DISCORD_CHAR_LIMIT) ∧
    (∀ (content : Str) (cfg : ChunkerConfig) (cs : List Str) (c : Str),
      content ≠ [] →
      chunkLines content cfg = .ok cs →
      cs.find? (fun c => decide (DISCORD_CHAR_LIMIT < c.length)) = some c →
      chunkContent content cfg = .error (sanityMsg c.length)) := by
  constructor
  · intro content cfg cs hv hok
    rw [chunkContent] at hok
    split at hok
    · rename_i hemp
      injection hok with hok
      subst hok
      intro c hc
      rw [List.mem_singleton.mp hc]
      have : content = [] := by simpa using hemp
      simp [this]
    · split at hok
      · simp at hok
      · exact sanityCheck_ok_bound _ _ hok
  · intro content cfg cs c hne hcl hfind
    rw [chunkContent, if_neg (by simpa using hne), hcl]
    show sanityCheck cs = _
    rw [sanityCheck, hfind]

theorem fenceMatch_replicate_A (n : Nat) :
    fenceMatch (List.replicate (n + 1) 'A') = none := by
  rw [List.replicate_succ, fenceMatch]
  simp [List.takeWhile_cons, isMarkerChar, backtick]

/-- C1, witness. -/
theorem c1_witness :
    (∀ c ∈ ["hi".data], c.length ≤ DISCORD_CHAR_LIMIT) ∧
    chunkContent (List.replicate 2100 'A') ⟨2500, 0⟩ = .error (sanityMsg 2100) := by
  constructor
  · exact c1_sanity_guard_hard_limit.1 ("hi".data) ⟨1950, 17⟩ ["hi".data]
      ⟨by decide, by decide⟩ (by rfl)
  · have hlen : (List.replicate 2100 'A').length = 2100 := List.length_replicate 2100 'A'
    have hsplit : splitOnNl (List.replicate 2100 'A') = [List.replicate 2100 'A'] := by
      refine splitOnNl_of_no_nl _ ?_
      intro hm
      exact absurd (List.eq_of_mem_replicate hm) (by decide)
    have hstep := step_eq_of_fits ⟨2500, 0⟩ initSt (List.replicate 2100 'A')
      (by rw [hlen]; decide)
    rw [if_neg (by rintro ⟨-, hcur⟩; exact hcur rfl)] at hstep
    have hcl : chunkLines (List.replicate 2100 'A') ⟨2500, 0⟩ =
        .ok [List.replicate 2100 'A'] := by
      rw [chunkLines, hsplit, runLines, hstep]
      rfl
    have hfind : ([List.replicate 2100 'A']).find?
        (fun c => decide (DISCORD_CHAR_LIMIT < c.length)) =
        some (List.replicate 2100 'A') := by
      rw [List.find?_singleton, if_pos]
      simp only [hlen, DISCORD_CHAR_LIMIT]
      decide
    have h := c1_sanity_guard_hard_limit.2 (List.replicate 2100 'A') ⟨2500, 0⟩
      [List.replicate 2100 'A'] (List.replicate 2100 'A')
      (by intro h0; exact absurd (congrArg List.length h0) (by rw [hlen]; decide))
      hcl hfind
    rw [h, hlen]

/-! ### Claim C9: fence tracker, trim stability -/

/-- Structural characterization of FENCE_RE matches. -/
def FenceShape (l : Str) (c : Char) (k : Nat) : Prop :=
  isMarkerChar c = true ∧ 3 ≤ k ∧
    ∃ a rest, a ≤ 3 ∧ rest.head? ≠ some c ∧
      l = List.replicate a ' ' ++ (List.replicate k c ++ rest)

theorem marker_ne_space (c : Char) (h : isMarkerChar c = true) : c ≠ ' ' := by
  rw [isMarkerChar] at h
  rcases Bool.or_eq_true_iff.mp h with h | h <;>
    · have := of_decide_eq_true h
      subst this
      decide

theorem marker_not_ws (c : Char) (h : isMarkerChar c = true) : isJsWs c = false := by
  rw [isMarkerChar] at h
  rcases Bool.or_eq_true_iff.mp h with h | h <;>
    · have := of_decide_eq_true h
      subst this
      decide

theorem head?_dropWhile_ne (p : Char → Bool) (l : Str) (x : Char)
    (h : (List.dropWhile p l).head? = some x) : p x = false := by
  have := List.head?_dropWhile_not p l
  rw [h] at this
  exact this

theorem fenceMatch_some_shape (l : Str) (c : Char) (k : Nat)
    (h : fenceMatch l = some (c, k)) : FenceShape l c k := by
  rw [fenceMatch] at h
  split at h
  · cases h
  · rename_i hsp
    split at h
    · cases h
    · rename_i c' rest0 hdrop
      split at h
      · dsimp only at h
        split at h
        · rename_i hmk hrun
          injection h with h
          injection h with h1 h2
          rw [← h1, ← h2]
          refine ⟨hmk, hrun, (List.takeWhile (fun ch => decide (ch = ' ')) l).length,
            List.dropWhile (fun d => decide (d = c')) rest0, by omega, ?_, ?_⟩
          · intro hhead
            have hne := head?_dropWhile_ne (fun d => decide (d = c')) rest0 c' hhead
            simp at hne
          · have htake : List.takeWhile (fun ch => decide (ch = ' ')) l =
                l.take (List.takeWhile (fun ch => decide (ch = ' ')) l).length :=
              List.prefix_iff_eq_take.mp (List.takeWhile_prefix _)
            have hl : l = List.takeWhile (fun ch => decide (ch = ' ')) l ++ (c' :: rest0) := by
              conv_lhs => rw [← List.take_append_drop
                (List.takeWhile (fun ch => decide (ch = ' ')) l).length l]
              rw [← htake, hdrop]
            have hsp_repl : List.takeWhile (fun ch => decide (ch = ' ')) l =
                List.replicate (List.takeWhile (fun ch => decide (ch = ' ')) l).length ' ' := by
              refine List.eq_replicate_of_mem ?_
              intro b hb
              have hbp := List.mem_takeWhile_imp hb
              simpa using hbp
            have hrest0 : rest0 = List.takeWhile (fun d => decide (d = c')) rest0 ++
                List.dropWhile (fun d => decide (d = c')) rest0 :=
              (List.takeWhile_append_dropWhile _ _).symm
            have hrun_repl : List.takeWhile (fun d => decide (d = c')) rest0 =
                List.replicate (List.takeWhile (fun d => decide (d = c')) rest0).length c' := by
              refine List.eq_replicate_of_mem ?_
              intro b hb
              have hbp := List.mem_takeWhile_imp hb
              simpa using hbp
            have hr2 : c' :: rest0 =
                List.replicate ((List.takeWhile (fun d => decide (d = c')) rest0).length + 1) c' ++
                  List.dropWhile (fun d => decide (d = c')) rest0 := by
              rw [List.replicate_succ, List.cons_append, List.cons_inj_right]
              conv_lhs => rw [hrest0, hrun_repl]
            conv_lhs => rw [hl, hr2]
            rw [← hsp_repl]
        · cases h
      · cases h

theorem fenceMatch_of_shape (l : Str) (c : Char) (k : Nat) (h : FenceShape l c k) :
    fenceMatch l = some (c, k) := by
  obtain ⟨hmk, hk, a, rest, ha, hhead, rfl⟩ := h
  have hcsp : (decide (c = ' ')) = false := by
    simpa using marker_ne_space c hmk
  have hk0 : ¬ ((0 : Nat) = k) := by omega
  have hsp : List.takeWhile (fun ch => decide (ch = ' '))
      (List.replicate a ' ' ++ (List.replicate k c ++ rest)) = List.replicate a ' ' := by
    simp [List.takeWhile_append, List.takeWhile_replicate, hcsp, hk0]
  have hdrop : (List.replicate a ' ' ++ (List.replicate k c ++ rest)).drop a =
      List.replicate k c ++ rest := by
    have hd := List.drop_left (List.replicate a ' ') (List.replicate k c ++ rest)
    simpa using hd
  obtain ⟨k', rfl⟩ : ∃ k', k = k' + 1 := ⟨k - 1, by omega⟩
  have htwrest : List.takeWhile (fun d => decide (d = c)) rest = [] := by
    cases rest with
    | nil => rfl
    | cons x xs =>
      have hxc : (decide (x = c)) = false := by
        simp only [List.head?_cons] at hhead
        simpa using fun hh => hhead (by rw [hh])
      simp [List.takeWhile_cons, hxc]
  have hrun : List.takeWhile (fun d => decide (d = c)) (List.replicate k' c ++ rest) =
      List.replicate k' c := by
    simp [List.takeWhile_append, List.takeWhile_replicate, htwrest]
  rw [fenceMatch]
  simp only [hsp, List.length_replicate]
  rw [if_neg (by omega)]
  rw [hdrop, List.replicate_succ, List.cons_append]
  dsimp only
  rw [if_pos hmk]
  rw [hrun]
  simp only [List.length_replicate]
  rw [if_pos (by omega)]

theorem fenceMatch_marker (l : Str) (c : Char) (k : Nat)
    (h : fenceMatch l = some (c, k)) : isMarkerChar c = true ∧ 3 ≤ k := by
  obtain ⟨h1, h2, -⟩ := fenceMatch_some_shape l c k h
  exact ⟨h1, h2⟩

theorem fenceMatch_closeLine (c : Char) (k : Nat)
    (hm : isMarkerChar c = true) (hk : 3 ≤ k) :
    fenceMatch (List.replicate k c) = some (c, k) :=
  fenceMatch_of_shape _ _ _ ⟨hm, hk, 0, [], by omega, by simp, by simp⟩

theorem exists_peel (t : Str) (c : Char) :
    ∃ j t', t = List.replicate j c ++ t' ∧ t'.head? ≠ some c := by
  induction t with
  | nil => exact ⟨0, [], rfl, by simp⟩
  | cons x xs ih =>
    by_cases hx : x = c
    · obtain ⟨j, t', ht, hh⟩ := ih
      exact ⟨j + 1, t', by rw [List.replicate_succ, List.cons_append, ← ht, hx], hh⟩
    · exact ⟨0, x :: xs, rfl, by simpa using hx⟩

theorem fenceMatch_isSome_append (p t : Str) (c : Char) (k : Nat)
    (h : fenceMatch p = some (c, k)) : (fenceMatch (p ++ t)).isSome = true := by
  obtain ⟨hmk, hk, a, rest, ha, hhead, rfl⟩ := fenceMatch_some_shape p c k h
  cases rest with
  | cons x xs =>
    have hsome : fenceMatch ((List.replicate a ' ' ++ (List.replicate k c ++ x :: xs)) ++ t) =
        some (c, k) := by
      refine fenceMatch_of_shape _ _ _ ⟨hmk, hk, a, x :: xs ++ t, ha, ?_, by simp⟩
      simpa using fun hh => hhead (by rw [List.head?_cons, hh])
    rw [hsome]
    rfl
  | nil =>
    obtain ⟨j, t', ht, hh⟩ := exists_peel t c
    have hsome : fenceMatch ((List.replicate a ' ' ++ (List.replicate k c ++ [])) ++ t) =
        some (c, k + j) := by
      refine fenceMatch_of_shape _ _ _ ⟨hmk, by omega, a, t', ha, hh, ?_⟩
      rw [ht]
      simp only [List.append_nil, List.append_assoc]
      congr 1
      rw [← List.append_assoc, ← List.replicate_add]
    rw [hsome]
    rfl

theorem trimRightWs_ne_nil_iff (s : Str) :
    trimRightWs s = [] ↔ s.reverse.dropWhile isJsWs = [] := by
  rw [trimRightWs]
  constructor
  · intro h
    have := congrArg List.reverse h
    simpa using this
  · intro h
    rw [h]
    rfl

theorem trimRightWs_append (xs ys : Str) :
    trimRightWs (xs ++ ys) =
      if trimRightWs ys = [] then trimRightWs xs else xs ++ trimRightWs ys := by
  rw [trimRightWs, List.reverse_append, List.dropWhile_append]
  split
  · rename_i hemp
    rw [if_pos]
    · rfl
    · rw [trimRightWs_ne_nil_iff]
      simpa using hemp
  · rename_i hemp
    rw [if_neg]
    · rw [List.reverse_append, List.reverse_reverse]
      rfl
    · rw [trimRightWs_ne_nil_iff]
      simpa using hemp

theorem trimRightWs_prefix_mono (s : Str) : trimRightWs s <+: s := by
  have h := List.dropWhile_suffix (l := s.reverse) isJsWs
  have h2 := h.reverse
  rw [List.reverse_reverse] at h2
  exact h2

theorem trimRightWs_replicate_marker (c : Char) (k : Nat) (hm : isMarkerChar c = true) :
    trimRightWs (List.replicate k c) = List.replicate k c := by
  rw [trimRightWs, List.reverse_replicate, List.dropWhile_replicate,
    if_neg (by simp [marker_not_ws c hm]), List.reverse_replicate]

theorem fenceMatch_trimLeftWs_of_some (l : Str) (c : Char) (k : Nat)
    (h : fenceMatch l = some (c, k)) :
    fenceMatch (trimLeftWs l) = some (c, k) := by
  obtain ⟨hmk, hk, a, rest, ha, hhead, rfl⟩ := fenceMatch_some_shape l c k h
  have htl : trimLeftWs (List.replicate a ' ' ++ (List.replicate k c ++ rest)) =
      List.replicate k c ++ rest := by
    rw [trimLeftWs, List.dropWhile_append,
      if_pos (by rw [List.dropWhile_replicate, if_pos (by decide)]; rfl)]
    obtain ⟨k', rfl⟩ : ∃ k', k = k' + 1 := ⟨k - 1, by omega⟩
    rw [List.replicate_succ, List.cons_append, List.dropWhile_cons,
      if_neg (by simp [marker_not_ws c hmk])]
  rw [htl]
  exact fenceMatch_of_shape _ _ _ ⟨hmk, hk, 0, rest, by omega, hhead, by simp⟩

theorem head?_eq_of_prefix_ne_nil (p l : Str) (hp : p <+: l) (hne : p ≠ []) :
    p.head? = l.head? := by
  obtain ⟨t, rfl⟩ := hp
  cases p with
  | nil => exact absurd rfl hne
  | cons x xs => rfl

/-- Trailing-whitespace removal never changes how a line parses as a fence
delimiter. -/
theorem fenceMatch_trimRightWs (l : Str) :
    fenceMatch (trimRightWs l) = fenceMatch l := by
  rcases hf : fenceMatch l with _ | ⟨c, k⟩
  · rcases hg : fenceMatch (trimRightWs l) with _ | ⟨c', k'⟩
    · rfl
    · obtain ⟨t, ht⟩ := trimRightWs_prefix_mono l
      have := fenceMatch_isSome_append (trimRightWs l) t c' k' hg
      rw [ht, hf] at this
      cases this
  · obtain ⟨hmk, hk, a, rest, ha, hhead, rfl⟩ := fenceMatch_some_shape l c k hf
    rw [← List.append_assoc, trimRightWs_append]
    split
    · rename_i hr
      rw [trimRightWs_append, trimRightWs_replicate_marker c k hmk,
        if_neg (by intro hc; exact absurd (congrArg List.length hc) (by simp; omega))]
      exact fenceMatch_of_shape _ _ _ ⟨hmk, hk, a, [], ha, by simp, by simp⟩
    · rename_i hr
      refine fenceMatch_of_shape _ _ _ ⟨hmk, hk, a, trimRightWs rest, ha, ?_, by
        rw [List.append_assoc]⟩
      rw [head?_eq_of_prefix_ne_nil (trimRightWs rest) rest (trimRightWs_prefix_mono rest) hr]
      exact hhead

/-- A line is edge-trim stable when removing leading whitespace does not
change how it parses as a fence delimiter.  (Four-or-more-space or
tab-indented marker runs are the lines that are not stable.) -/
def Stable (l : Str) : Prop := fenceMatch (trimLeftWs l) = fenceMatch l

theorem trimLeftWs_prefix_mono (p l : Str) (h : p <+: l) :
    trimLeftWs p <+: trimLeftWs l := by
  obtain ⟨t, rfl⟩ := h
  rw [trimLeftWs, trimLeftWs, List.dropWhile_append]
  split
  · rename_i hemp
    rw [List.isEmpty_iff] at hemp
    rw [hemp]
    exact List.nil_prefix
  · exact List.prefix_append _ _

theorem stable_trimRightWs (l : Str) (h : Stable l) : Stable (trimRightWs l) := by
  rw [Stable, fenceMatch_trimRightWs]
  rcases hf : fenceMatch l with _ | ⟨c, k⟩
  · rcases hg : fenceMatch (trimLeftWs (trimRightWs l)) with _ | ⟨c', k'⟩
    · rfl
    · have hpre : trimLeftWs (trimRightWs l) <+: trimLeftWs l :=
        trimLeftWs_prefix_mono _ _ (trimRightWs_prefix_mono l)
      obtain ⟨t, ht⟩ := hpre
      have := fenceMatch_isSome_append _ t c' k' hg
      rw [ht] at this
      rw [Stable, hf] at h
      rw [h] at this
      cases this
  · have h1 : fenceMatch (trimRightWs l) = some (c, k) := by
      rw [fenceMatch_trimRightWs, hf]
    exact fenceMatch_trimLeftWs_of_some _ _ _ h1

def trackFM : Option (Char × Nat) → Option (Char × Nat) → Option (Char × Nat)
  | some (c, k), none => some (c, k)
  | some (c, k), some (c0, k0) => if c = c0 ∧ k0 ≤ k then none else some (c0, k0)
  | none, s => s

/-- The fence-tracker transition on one line, exactly as the splitter
updates its fence state (marker character and length only). -/
def track (s : Option (Char × Nat)) (line : Str) : Option (Char × Nat) :=
  trackFM (fenceMatch line) s

def runTrack (s : Option (Char × Nat)) (lines : List Str) : Option (Char × Nat) :=
  lines.foldl track s

/-- A text is fence-balanced when the tracker, started closed, ends with no
open fence. -/
def FenceBalanced (text : Str) : Prop := runTrack none (splitOnNl text) = none

theorem runTrack_append (s : Option (Char × Nat)) (xs ys : List Str) :
    runTrack s (xs ++ ys) = runTrack (runTrack s xs) ys :=
  List.foldl_append _ _ _ _

theorem track_congr (s : Option (Char × Nat)) (l l' : Str)
    (h : fenceMatch l = fenceMatch l') : track s l = track s l' := by
  rw [track, track, h]


theorem track_of_none (s : Option (Char × Nat)) (l : Str)
    (h : fenceMatch l = none) : track s l = s := by
  rw [track, h]
  rfl

def allWsLine (l : Str) : Bool := l.all isJsWs

theorem fenceMatch_of_allWs (l : Str) (h : allWsLine l = true) :
    fenceMatch l = none := by
  rcases hf : fenceMatch l with _ | ⟨c, k⟩
  · rfl
  · obtain ⟨hmk, hk, a, rest, ha, hhead, heq⟩ := fenceMatch_some_shape l c k hf
    have hc : c ∈ l := by
      rw [heq]
      refine List.mem_append.mpr (Or.inr (List.mem_append.mpr (Or.inl ?_)))
      exact List.mem_replicate.mpr ⟨by omega, rfl⟩
    have := List.all_eq_true.mp h c hc
    rw [marker_not_ws c hmk] at this
    cases this

theorem trimRightWs_eq_nil_iff (l : Str) : trimRightWs l = [] ↔ allWsLine l = true := by
  rw [trimRightWs, allWsLine]
  constructor
  · intro h
    have h2 : l.reverse.dropWhile isJsWs = [] := by
      have := congrArg List.reverse h
      simpa using this
    rw [List.dropWhile_eq_nil_iff] at h2
    rw [List.all_eq_true]
    intro x hx
    exact h2 x (List.mem_reverse.mpr hx)
  · intro h
    have h2 : l.reverse.dropWhile isJsWs = [] := by
      rw [List.dropWhile_eq_nil_iff]
      intro x hx
      exact List.all_eq_true.mp h x (List.mem_reverse.mp hx)
    rw [h2]
    rfl

theorem trimLeftWs_eq_nil_iff (l : Str) : trimLeftWs l = [] ↔ allWsLine l = true := by
  rw [trimLeftWs, allWsLine, List.dropWhile_eq_nil_iff, List.all_eq_true]

def leftTrimLines : List Str → List Str
  | [] => []
  | l :: ls => if allWsLine l then leftTrimLines ls else trimLeftWs l :: ls

def consRTL (l : Str) : List Str → List Str
  | [] => if allWsLine l then [] else [trimRightWs l]
  | a :: as => l :: a :: as

def rightTrimLines : List Str → List Str
  | [] => []
  | [l] => if allWsLine l then [] else [trimRightWs l]
  | l :: l' :: ls => consRTL l (rightTrimLines (l' :: ls))

theorem trimLeft_joinNl (ls : List Str) :
    trimLeftWs (joinNl ls) = joinNl (leftTrimLines ls) := by
  induction ls with
  | nil => rfl
  | cons l ls ih =>
    cases ls with
    | nil =>
      rw [leftTrimLines]
      split
      · rename_i hws
        show trimLeftWs l = joinNl []
        rw [(trimLeftWs_eq_nil_iff l).mpr hws]
        rfl
      · rfl
    | cons l' ls' =>
      rw [joinNl_cons_cons, leftTrimLines, trimLeftWs, List.dropWhile_append]
      split
      · rename_i hemp
        have hws : allWsLine l = true := by
          rw [← trimLeftWs_eq_nil_iff, trimLeftWs]
          simpa using hemp
        rw [if_pos hws, List.dropWhile_cons, if_pos (by decide)]
        exact ih
      · rename_i hemp
        have hws : allWsLine l = false := by
          rw [← Bool.not_eq_true, ← trimLeftWs_eq_nil_iff, trimLeftWs]
          intro hc
          rw [hc] at hemp
          simp at hemp
        rw [if_neg (by rw [hws]; exact fun hc => nomatch hc)]
        rw [joinNl_cons_cons]
        rfl

theorem trimRightWs_cons_nl (z : Str) :
    trimRightWs ('\n' :: z) = if trimRightWs z = [] then [] else '\n' :: trimRightWs z := by
  have h := trimRightWs_append ['\n'] z
  simp only [List.singleton_append] at h
  rw [h]
  split
  · rfl
  · rfl

theorem rightTrimLines_eq_nil (ls : List Str) (h : rightTrimLines ls = []) :
    ∀ l ∈ ls, allWsLine l = true := by
  induction ls with
  | nil => simp
  | cons l ls ih =>
    cases ls with
    | nil =>
      rw [rightTrimLines] at h
      intro x hx
      rcases List.mem_singleton.mp hx with rfl
      by_contra hws
      rw [if_neg hws] at h
      cases h
    | cons l' ls' =>
      rw [rightTrimLines] at h
      intro x hx
      rcases hr : rightTrimLines (l' :: ls') with _ | ⟨a, as⟩
      · simp only [hr, consRTL] at h
        rcases List.mem_cons.mp hx with rfl | hx
        · by_contra hws
          rw [if_neg hws] at h
          cases h
        · exact ih hr x hx
      · simp only [hr, consRTL] at h
        cases h

theorem rightTrimLines_join_ne_nil (ls : List Str) (h : rightTrimLines ls ≠ []) :
    joinNl (rightTrimLines ls) ≠ [] := by
  induction ls with
  | nil => exact absurd rfl h
  | cons l ls ih =>
    cases ls with
    | nil =>
      rw [rightTrimLines] at h
      rw [rightTrimLines]
      split at h
      · exact absurd rfl h
      · rename_i hws
        rw [if_neg hws]
        show trimRightWs l ≠ []
        intro hc
        exact hws ((trimRightWs_eq_nil_iff l).mp hc)
    | cons l' ls' =>
      rw [rightTrimLines] at h
      rw [rightTrimLines]
      rcases hr : rightTrimLines (l' :: ls') with _ | ⟨a, as⟩
      · simp only [hr, consRTL] at h ⊢
        split at h
        · exact absurd rfl h
        · rename_i hws
          rw [if_neg hws]
          show trimRightWs l ≠ []
          intro hc
          exact hws ((trimRightWs_eq_nil_iff l).mp hc)
      · simp only [hr, consRTL]
        rw [joinNl_cons_cons]
        simp

theorem trimRight_joinNl (ls : List Str) :
    trimRightWs (joinNl ls) = joinNl (rightTrimLines ls) := by
  induction ls with
  | nil => rfl
  | cons l ls ih =>
    cases ls with
    | nil =>
      show trimRightWs l = joinNl (rightTrimLines [l])
      rw [rightTrimLines]
      split
      · rename_i hws
        rw [(trimRightWs_eq_nil_iff l).mpr hws]
        rfl
      · rfl
    | cons l' ls' =>
      rw [joinNl_cons_cons, trimRightWs_append, trimRightWs_cons_nl, ih, rightTrimLines]
      rcases hr : rightTrimLines (l' :: ls') with _ | ⟨a, as⟩
      · simp only [hr, consRTL]
        rw [show joinNl ([] : List Str) = [] from rfl]
        rw [if_pos rfl, if_pos rfl]
        split
        · rename_i hws
          rw [(trimRightWs_eq_nil_iff l).mpr hws]
          rfl
        · rfl
      · have hne : joinNl (a :: as) ≠ [] := by
          rw [← hr]
          exact rightTrimLines_join_ne_nil _ (by rw [hr]; simp)
        simp only [hr, consRTL]
        rw [if_neg hne, if_neg (by simp), joinNl_cons_cons]

theorem runTrack_leftTrimLines (ls : List Str) :
    ∀ s, (∀ l ∈ ls, Stable l) →
    runTrack s (leftTrimLines ls) = runTrack s ls := by
  induction ls with
  | nil => intro s _; rfl
  | cons l ls ih =>
    intro s hst
    rw [leftTrimLines]
    split
    · rename_i hws
      show runTrack s (leftTrimLines ls) = runTrack (track s l) ls
      rw [track_of_none s l (fenceMatch_of_allWs l hws)]
      exact ih s (fun x hx => hst x (by simp [hx]))
    · show runTrack (track s (trimLeftWs l)) ls = runTrack (track s l) ls
      rw [track_congr s _ _ (hst l (by simp))]

theorem runTrack_rightTrimLines (ls : List Str) :
    ∀ s, runTrack s (rightTrimLines ls) = runTrack s ls := by
  induction ls with
  | nil => intro s; rfl
  | cons l ls ih =>
    intro s
    cases ls with
    | nil =>
      rw [rightTrimLines]
      split
      · rename_i hws
        show s = runTrack s [l]
        show s = track s l
        rw [track_of_none s l (fenceMatch_of_allWs l hws)]
      · show runTrack s [trimRightWs l] = runTrack s [l]
        show track s (trimRightWs l) = track s l
        exact track_congr s _ _ (fenceMatch_trimRightWs l)
    | cons l' ls' =>
      rw [rightTrimLines]
      rcases hr : rightTrimLines (l' :: ls') with _ | ⟨a, as⟩
      · simp only [consRTL]
        have hallws := rightTrimLines_eq_nil _ hr
        have htail : ∀ t : Option (Char × Nat), runTrack t (l' :: ls') = t := by
          intro t
          have : ∀ (ms : List Str), (∀ m ∈ ms, allWsLine m = true) →
              runTrack t ms = t := by
            intro ms
            induction ms generalizing t with
            | nil => intro _; rfl
            | cons m ms ihm =>
              intro hm
              show runTrack (track t m) ms = t
              rw [track_of_none t m (fenceMatch_of_allWs m (hm m (by simp)))]
              exact ihm t (fun x hx => hm x (by simp [hx]))
          exact this (l' :: ls') hallws
        split
        · rename_i hws
          show s = runTrack s (l :: l' :: ls')
          show s = runTrack (track s l) (l' :: ls')
          rw [track_of_none s l (fenceMatch_of_allWs l hws), htail s]
        · show runTrack s [trimRightWs l] = runTrack s (l :: l' :: ls')
          show track s (trimRightWs l) = runTrack (track s l) (l' :: ls')
          rw [htail (track s l)]
          exact track_congr s _ _ (fenceMatch_trimRightWs l)
      · simp only [consRTL]
        show runTrack (track s l) (a :: as) = runTrack (track s l) (l' :: ls')
        rw [← hr]
        exact ih (track s l)

theorem mem_leftTrimLines (ls : List Str) (x : Str) (hx : x ∈ leftTrimLines ls) :
    x ∈ ls ∨ ∃ l ∈ ls, x = trimLeftWs l := by
  induction ls with
  | nil => simp [leftTrimLines] at hx
  | cons l ls ih =>
    rw [leftTrimLines] at hx
    split at hx
    · rcases ih hx with h | ⟨m, hm, hx'⟩
      · exact Or.inl (by simp [h])
      · exact Or.inr ⟨m, by simp [hm], hx'⟩
    · rcases List.mem_cons.mp hx with rfl | hx'
      · exact Or.inr ⟨l, by simp, rfl⟩
      · exact Or.inl (by simp [hx'])

theorem mem_rightTrimLines (ls : List Str) (x : Str) (hx : x ∈ rightTrimLines ls) :
    x ∈ ls ∨ ∃ l ∈ ls, x = trimRightWs l := by
  induction ls with
  | nil => simp [rightTrimLines] at hx
  | cons l ls ih =>
    cases ls with
    | nil =>
      rw [rightTrimLines] at hx
      split at hx
      · simp at hx
      · rcases List.mem_singleton.mp hx with rfl
        exact Or.inr ⟨l, by simp, rfl⟩
    | cons l' ls' =>
      rw [rightTrimLines] at hx
      rcases hr : rightTrimLines (l' :: ls') with _ | ⟨a, as⟩
      · simp only [hr, consRTL] at hx
        split at hx
        · simp at hx
        · rcases List.mem_singleton.mp hx with rfl
          exact Or.inr ⟨l, by simp, rfl⟩
      · simp only [hr, consRTL] at hx
        rcases List.mem_cons.mp hx with rfl | hx'
        · exact Or.inl (by simp)
        · have : x ∈ rightTrimLines (l' :: ls') := by rw [hr]; exact hx'
          rcases ih this with h | ⟨m, hm, hx''⟩
          · exact Or.inl (by simp [h])
          · exact Or.inr ⟨m, by simp [hm], hx''⟩

theorem nl_not_mem_trimLeftWs (l : Str) (h : '\n' ∉ l) : '\n' ∉ trimLeftWs l :=
  fun hc => h ((List.dropWhile_sublist _).subset hc)

theorem nl_not_mem_trimRightWs (l : Str) (h : '\n' ∉ l) : '\n' ∉ trimRightWs l :=
  fun hc => h ((trimRightWs_prefix_mono l).sublist.subset hc)

/-- The trimmed chunk emitted by `flush` is tracker-balanced whenever the
line buffer it came from is: chunk-level trimming only drops all-whitespace
edge lines and edge whitespace of edge-trim-stable lines. -/
theorem chunk_balanced (cur : List Str)
    (hnl : ∀ l ∈ cur, '\n' ∉ l) (hst : ∀ l ∈ cur, Stable l)
    (hbal : runTrack none cur = none) :
    runTrack none (splitOnNl (trimWs (joinNl cur))) = none := by
  rw [trimWs, trimRight_joinNl, trimLeft_joinNl]
  have hmemR : ∀ x ∈ rightTrimLines cur, '\n' ∉ x ∧ Stable x := by
    intro x hx
    rcases mem_rightTrimLines _ _ hx with h | ⟨m, hm, rfl⟩
    · exact ⟨hnl x h, hst x h⟩
    · exact ⟨nl_not_mem_trimRightWs m (hnl m hm), stable_trimRightWs m (hst m hm)⟩
  have hrun : runTrack none (leftTrimLines (rightTrimLines cur)) = none := by
    rw [runTrack_leftTrimLines _ none (fun l hl => (hmemR l hl).2),
      runTrack_rightTrimLines _ none]
    exact hbal
  by_cases hcase : leftTrimLines (rightTrimLines cur) = []
  · rw [hcase]
    rfl
  · have hmemL : ∀ x ∈ leftTrimLines (rightTrimLines cur), '\n' ∉ x := by
      intro x hx
      rcases mem_leftTrimLines _ _ hx with h | ⟨m, hm, rfl⟩
      · exact (hmemR x h).1
      · exact nl_not_mem_trimLeftWs m (hmemR m hm).1
    rw [splitOnNl_joinNl _ hcase hmemL]
    exact hrun

def projF : Option FenceState → Option (Char × Nat)
  | none => none
  | some f => some (f.markerChar, f.markerLen)

/-- The invariant tying the splitter state to the fence tracker: every
emitted chunk is balanced, the line buffer's tracker state is exactly the
splitter's fence state, and that state is the tracker state of the consumed
input. -/
structure TrackOk (st : St) (s : Option (Char × Nat)) : Prop where
  chunksBal : ∀ c ∈ st.chunks, runTrack none (splitOnNl c) = none
  curTrack : runTrack none st.current = projF st.fence
  stateEq : projF st.fence = s
  curNl : ∀ l ∈ st.current, '\n' ∉ l
  curStable : ∀ l ∈ st.current, Stable l
  fenceOk : ∀ f, st.fence = some f →
    fenceMatch f.openLine = some (f.markerChar, f.markerLen) ∧
      Stable f.openLine ∧ '\n' ∉ f.openLine

theorem marker_ne_nl (c : Char) (h : isMarkerChar c = true) : c ≠ '\n' := by
  rw [isMarkerChar] at h
  rcases Bool.or_eq_true_iff.mp h with h | h <;>
    · have := of_decide_eq_true h
      subst this
      decide

theorem trimLeftWs_replicate_marker (c : Char) (k : Nat) (hm : isMarkerChar c = true) :
    trimLeftWs (List.replicate k c) = List.replicate k c := by
  rw [trimLeftWs, List.dropWhile_replicate, if_neg (by simp [marker_not_ws c hm])]

theorem closeLine_props (f : FenceState)
    (hf : fenceMatch f.openLine = some (f.markerChar, f.markerLen)) :
    fenceMatch (closeLineOf f) = some (f.markerChar, f.markerLen) ∧
      Stable (closeLineOf f) ∧ '\n' ∉ closeLineOf f := by
  obtain ⟨hmk, hk⟩ := fenceMatch_marker _ _ _ hf
  refine ⟨fenceMatch_closeLine _ _ hmk hk, ?_, ?_⟩
  · rw [Stable, closeLineOf, trimLeftWs_replicate_marker _ _ hmk]
  · rw [closeLineOf]
    intro hmem
    exact marker_ne_nl _ hmk (List.eq_of_mem_replicate hmem).symm

theorem flushSt_trackOk (st : St) (s : Option (Char × Nat)) (h : TrackOk st s) :
    TrackOk (flushSt st) s := by
  rw [flushSt]
  split
  · exact h
  · rename_i hcur
    rcases hf : st.fence with _ | f
    · refine ⟨?_, ?_, ?_, by simp, by simp, by simp⟩
      · intro c hc
        rcases List.mem_append.mp hc with hc | hc
        · exact h.chunksBal c hc
        · rcases List.mem_singleton.mp hc with rfl
          refine chunk_balanced _ h.curNl h.curStable ?_
          rw [h.curTrack, hf]
          rfl
      · rfl
      · show (none : Option (Char × Nat)) = s
        rw [← h.stateEq, hf]
        rfl
    · obtain ⟨hfm, hfs, hfn⟩ := h.fenceOk f hf
      obtain ⟨hcl1, hcl2, hcl3⟩ := closeLine_props f hfm
      refine ⟨?_, ?_, ?_, ?_, ?_, ?_⟩
      · intro c hc
        rcases List.mem_append.mp hc with hc | hc
        · exact h.chunksBal c hc
        · rcases List.mem_singleton.mp hc with rfl
          refine chunk_balanced _ ?_ ?_ ?_
          · intro l hl
            rcases List.mem_append.mp hl with hl | hl
            · exact h.curNl l hl
            · rcases List.mem_singleton.mp hl with rfl
              exact hcl3
          · intro l hl
            rcases List.mem_append.mp hl with hl | hl
            · exact h.curStable l hl
            · rcases List.mem_singleton.mp hl with rfl
              exact hcl2
          · rw [runTrack_append, h.curTrack, hf]
            show track (projF (some f)) (closeLineOf f) = none
            rw [track, hcl1, projF]
            show (if f.markerChar = f.markerChar ∧ f.markerLen ≤ f.markerLen
              then none else some (f.markerChar, f.markerLen)) = none
            rw [if_pos ⟨rfl, le_refl _⟩]
      · show runTrack none [f.openLine] = projF (some f)
        show track none f.openLine = projF (some f)
        rw [track, hfm, projF]
        rfl
      · show projF (some f) = s
        rw [← h.stateEq, hf]
      · intro l hl
        rcases List.mem_singleton.mp hl with rfl
        exact hfn
      · intro l hl
        rcases List.mem_singleton.mp hl with rfl
        exact hfs
      · intro f' hf'
        injection hf' with hf'
        rw [← hf']
        exact ⟨hfm, hfs, hfn⟩

theorem updateFence_fm_none (fence : Option FenceState) (line : Str) :
    updateFence fence line none = fence := rfl

theorem updateFence_none_some (line : Str) (c : Char) (k : Nat) :
    updateFence none line (some (c, k)) =
      some { openLine := line, markerChar := c, markerLen := k } := rfl

theorem updateFence_some_some (f : FenceState) (line : Str) (c : Char) (k : Nat) :
    updateFence (some f) line (some (c, k)) =
      if c = f.markerChar ∧ f.markerLen ≤ k then none else some f := rfl

theorem projF_updateFence (fence : Option FenceState) (line : Str) :
    projF (updateFence fence line (fenceMatch line)) = track (projF fence) line := by
  rw [track]
  rcases hm : fenceMatch line with _ | ⟨c, k⟩
  · rw [updateFence]
    rfl
  · rcases hf : fence with _ | f
    · rw [updateFence]
      rfl
    · rw [updateFence]
      show projF (if c = f.markerChar ∧ f.markerLen ≤ k then none else some f) =
        trackFM (some (c, k)) (projF (some f))
      rw [projF]
      show _ = (if c = f.markerChar ∧ f.markerLen ≤ k then none
        else some (f.markerChar, f.markerLen))
      split
      · rfl
      · rfl

theorem step_trackOk (cfg : ChunkerConfig) (st : St) (line : Str) (st2 : St)
    (s : Option (Char × Nat))
    (hlen : line.length ≤ cfg.maxChars)
    (hnl : '\n' ∉ line) (hstline : Stable line)
    (h : TrackOk st s)
    (hstep : step cfg st line = .ok st2) :
    TrackOk st2 (track s line) := by
  rw [step_eq_of_fits cfg st line hlen] at hstep
  injection hstep with hstep
  set st1 := (if (cfg.maxChars < st.currentChars + (if st.current.isEmpty then 0 else 1) + line.length +
                (match st.fence with | some f => 1 + (closeLineOf f).length | none => 0) ∨
              (0 < cfg.maxLines ∧ cfg.maxLines < st.currentContentLines +
                (if lineIsFenceB st.fence (fenceMatch line) then 0 else 1))) ∧
              ¬ st.current.isEmpty
      then flushSt st else st) with hst1
  by_cases hcond : (cfg.maxChars < st.currentChars + (if st.current.isEmpty then 0 else 1) + line.length +
                (match st.fence with | some f => 1 + (closeLineOf f).length | none => 0) ∨
              (0 < cfg.maxLines ∧ cfg.maxLines < st.currentContentLines +
                (if lineIsFenceB st.fence (fenceMatch line) then 0 else 1))) ∧
              ¬ st.current.isEmpty
  on_goal 1 => have hst1eq : st1 = flushSt st := by rw [hst1, if_pos hcond]
  on_goal 2 => have hst1eq : st1 = st := by rw [hst1, if_neg hcond]
  all_goals
  have h1 : TrackOk st1 s := by
    rw [hst1eq]
    first
      | exact flushSt_trackOk st s h
      | exact h
  have hfence1 : st1.fence = st.fence := by
    first
      | (rw [hst1eq]; exact flushSt_fence st)
      | rw [hst1eq]
  subst hstep
  refine ⟨?_, ?_, ?_, ?_, ?_, ?_⟩
  · intro c hc
    exact h1.chunksBal c hc
  · show runTrack none (st1.current ++ [line]) =
      projF (updateFence st.fence line (fenceMatch line))
    rw [runTrack_append, h1.curTrack, hfence1, projF_updateFence]
    rfl
  · show projF (updateFence st.fence line (fenceMatch line)) = track s line
    rw [projF_updateFence, h.stateEq]
  · intro l hl
    rcases List.mem_append.mp hl with hl | hl
    · exact h1.curNl l hl
    · rcases List.mem_singleton.mp hl with rfl
      exact hnl
  · intro l hl
    rcases List.mem_append.mp hl with hl | hl
    · exact h1.curStable l hl
    · rcases List.mem_singleton.mp hl with rfl
      exact hstline
  · intro f' hf'
    have hf2 : updateFence st.fence line (fenceMatch line) = some f' := hf'
    rcases hm : fenceMatch line with _ | ⟨c, k⟩
    · rw [hm, updateFence_fm_none] at hf2
      exact h.fenceOk f' hf2
    · rcases hf : st.fence with _ | f
      · rw [hm, hf, updateFence_none_some] at hf2
        injection hf2 with hf2
        rw [← hf2]
        exact ⟨hm, hstline, hnl⟩
      · rw [hm, hf, updateFence_some_some] at hf2
        split at hf2
        · cases hf2
        · injection hf2 with hf2
          rw [← hf2]
          exact h.fenceOk f hf

theorem runLines_trackOk (cfg : ChunkerConfig) (lines : List Str) :
    ∀ (st : St) (s : Option (Char × Nat)),
    (∀ l ∈ lines, l.length ≤ cfg.maxChars) →
    (∀ l ∈ lines, '\n' ∉ l) →
    (∀ l ∈ lines, Stable l) →
    TrackOk st s →
    ∃ st', runLines cfg st lines = .ok st' ∧ TrackOk st' (runTrack s lines) := by
  induction lines with
  | nil =>
    intro st s _ _ _ h
    exact ⟨st, rfl, h⟩
  | cons line rs ih =>
    intro st s hlen hnl hst h
    have hsteq := step_eq_of_fits cfg st line (hlen line (by simp))
    rw [runLines, hsteq]
    have hnext := step_trackOk cfg st line _ s (hlen line (by simp))
      (hnl line (by simp)) (hst line (by simp)) h hsteq
    obtain ⟨st', hrun, hok⟩ := ih _ (track s line)
      (fun l hl => hlen l (by simp [hl]))
      (fun l hl => hnl l (by simp [hl]))
      (fun l hl => hst l (by simp [hl]))
      hnext
    exact ⟨st', hrun, hok⟩

/-- C9 (amended): for balanced content in which no line exceeds maxChars
and every line's fence parsing is unchanged by removing its leading
whitespace, every chunk returned by chunkContent is fence-balanced: the
tracker, started closed, ends closed on the chunk. -/
theorem c9_amended_tracker_balance (content : Str) (cfg : ChunkerConfig) (cs : List Str)
    (hbal : FenceBalanced content)
    (hlen : ∀ l ∈ splitOnNl content, l.length ≤ cfg.maxChars)
    (hstable : ∀ l ∈ splitOnNl content, Stable l)
    (hok : chunkContent content cfg = .ok cs) :
    ∀ c ∈ cs, runTrack none (splitOnNl c) = none := by
  rw [chunkContent] at hok
  split at hok
  · rename_i hemp
    have hcs : cs = [content] := by
      cases hok
      rfl
    subst hcs
    intro c hc
    rw [List.mem_singleton.mp hc]
    have hc0 : content = [] := by simpa using hemp
    rw [hc0]
    rfl
  · rw [chunkLines] at hok
    have hinit : TrackOk initSt none :=
      ⟨by intro c hc; simp [initSt] at hc, rfl, rfl, by simp [initSt],
        by simp [initSt], by intro f hf; simp [initSt] at hf⟩
    obtain ⟨st', hrun, hok'⟩ := runLines_trackOk cfg (splitOnNl content) initSt none
      hlen (splitOnNl_no_nl content) hstable hinit
    rw [hrun] at hok
    rw [FenceBalanced] at hbal
    rw [hbal] at hok'
    have hchunks : ∀ c ∈ (if st'.current.isEmpty then st'.chunks
        else st'.chunks ++ [joinNl st'.current]), runTrack none (splitOnNl c) = none := by
      intro c hc
      split at hc
      · exact hok'.chunksBal c hc
      · rename_i hcur
        rcases List.mem_append.mp hc with hc | hc
        · exact hok'.chunksBal c hc
        · rcases List.mem_singleton.mp hc with rfl
          rw [splitOnNl_joinNl _ (by simpa using hcur) hok'.curNl]
          rw [hok'.curTrack, hok'.stateEq]
    have hsan : sanityCheck (if st'.current.isEmpty then st'.chunks
        else st'.chunks ++ [joinNl st'.current]) = .ok cs := hok
    have hcs := sanityCheck_eq_ok _ _ hsan
    subst hcs
    exact hchunks

def c9CEInput : Str :=
  List.replicate 4 backtick ++ '\n' :: (List.replicate 3 backtick ++ '\n' :: List.replicate 4 backtick)

/-- C9, counterexample: the input made of a 4-backtick fence line, a
3-backtick line and a 4-backtick line is balanced (the inner 3-backtick
line cannot close the 4-backtick fence) and comes back as a single chunk,
yet that chunk holds 3 fence-delimiter lines, an odd number: the claimed
even-count invariant is false even for balanced input. -/
theorem c9_counterexample :
    FenceBalanced c9CEInput ∧
    chunkContent c9CEInput ⟨1950, 0⟩ = Except.ok [c9CEInput] ∧
    ((splitOnNl c9CEInput).filter isFenceLine).length = 3 ∧
    ¬ Even (((splitOnNl c9CEInput).filter isFenceLine).length) := by
  refine ⟨rfl, by rfl, by decide, by decide⟩

def c9WitInput : Str :=
  List.replicate 3 backtick ++ '\n' ::
    (List.replicate 90 'a' ++ '\n' ::
      (List.replicate 90 'b' ++ '\n' :: List.replicate 3 backtick))

def c9Chunk1 : Str :=
  List.replicate 3 backtick ++ '\n' :: (List.replicate 90 'a' ++ '\n' :: List.replicate 3 backtick)

def c9Chunk2 : Str :=
  List.replicate 3 backtick ++ '\n' :: (List.replicate 90 'b' ++ '\n' :: List.replicate 3 backtick)

def c9Chunk3 : Str :=
  List.replicate 3 backtick ++ '\n' :: List.replicate 3 backtick

def c9WitChunks : List Str := [c9Chunk1, c9Chunk2, c9Chunk3]

set_option maxRecDepth 40000 in
/-- C9, witness: a fenced 190-character content splits into three chunks,
each of which the fence tracker certifies balanced. -/
theorem c9_witness :
    chunkContent c9WitInput ⟨100, 0⟩ = Except.ok c9WitChunks ∧
    runTrack none (splitOnNl c9Chunk1) = none ∧
    runTrack none (splitOnNl c9Chunk2) = none ∧
    runTrack none (splitOnNl c9Chunk3) = none := by
  have hbal : runTrack none (splitOnNl c9WitInput) = none := by rfl
  have hlen : ∀ l ∈ splitOnNl c9WitInput, l.length ≤ (100 : Nat) := by decide
  have hstable : ∀ l ∈ splitOnNl c9WitInput,
      fenceMatch (trimLeftWs l) = fenceMatch l := by decide
  have hok : chunkContent c9WitInput ⟨100, 0⟩ = Except.ok c9WitChunks := by rfl
  have hall := c9_amended_tracker_balance c9WitInput ⟨100, 0⟩ c9WitChunks hbal hlen hstable hok
  exact ⟨hok, hall c9Chunk1 (by simp [c9WitChunks]), hall c9Chunk2 (by simp [c9WitChunks]),
    hall c9Chunk3 (by simp [c9WitChunks])⟩

end DiscordChunker
